import Mathlib

/-!
Shallow embedding of the Servo DOM `NodeIterator` traversal engine
(`src/components/script/dom/nodeiterator.rs`).

The document tree is modelled as a finite rose tree (`DomTree`); a node handle
is its path of child indices from the document root (`Pos`), which gives the
node identity used by `is_root_node`.  Tree-navigation capabilities
(`first_child`, `last_child`, `next_sibling`, `prev_sibling`, `parent_node`)
are the path-level readings of the host tree relations.  The two inner loops
of the Rust code (the ancestor climb inside `following`, and the
descend-to-last-leaf inside `preceding`) become structural recursions; the
outer `traverse` loop, whose termination is one of the properties under
study, takes explicit fuel, with a distinguished `fuelOut` outcome.
Machine integers (`u32 what_to_show`, the `u16` filter verdicts) are carried
as `Nat`; the claims under study only exercise the DOM's 1-based node kinds,
on which the arithmetic agrees.
-/

namespace NodeIteratorSpec

/-- A node handle: the path of child indices from the document root. -/
abbrev Pos := List Nat

/-- The host document tree: a node kind (the DOM `nodeType`, 1-based) and a
list of children. -/
inductive DomTree where
  | node (kind : Nat) (children : List DomTree)
deriving Repr

/-- Subtree of the document at a path, `none` if the path is not a node. -/
def subtreeAt : DomTree → Pos → Option DomTree
  | t, [] => some t
  | .node _ cs, i :: p =>
    match cs[i]? with
    | some c => subtreeAt c p
    | none => none

/-- A path denotes a node of the document. -/
def valid (t : DomTree) (p : Pos) : Bool :=
  (subtreeAt t p).isSome

/-- The node kind (`Node::NodeType`) at a path (0 for invalid paths, which
never denote a node handle). -/
def kindAt (t : DomTree) (p : Pos) : Nat :=
  match subtreeAt t p with
  | some (.node k _) => k
  | none => 0

/-- `node.first_child()`. -/
def first_child (t : DomTree) (p : Pos) : Option Pos :=
  match subtreeAt t p with
  | some (.node _ []) => none
  | some (.node _ (_ :: _)) => some (p ++ [0])
  | none => none

/-- `node.last_child()`. -/
def last_child (t : DomTree) (p : Pos) : Option Pos :=
  match subtreeAt t p with
  | some (.node _ []) => none
  | some (.node _ (_ :: cs)) => some (p ++ [cs.length])
  | none => none

/-- `node.parent_node()`: the document root has no parent. -/
def parent_node : Pos → Option Pos
  | [] => none
  | p :: ps => some (p :: ps).dropLast

/-- `node.next_sibling()`. -/
def next_sibling (t : DomTree) (p : Pos) : Option Pos :=
  match p.getLast? with
  | none => none
  | some i =>
    match subtreeAt t p.dropLast with
    | some (.node _ cs) =>
      if i + 1 < cs.length then some (p.dropLast ++ [i + 1]) else none
    | none => none

/-- `node.prev_sibling()`. -/
def prev_sibling (p : Pos) : Option Pos :=
  match p.getLast? with
  | none => none
  | some 0 => none
  | some (j + 1) => some (p.dropLast ++ [j])

/-- Error raised by a failing JS filter callback
(`dom::bindings::error::Error`), abstracted to a code. -/
abbrev Error := Nat

/-- Modelled from the spec: `NodeFilterConstants` lives in `treewalker.rs`,
which is outside the provided sources; the verdict values are the WHATWG
`NodeFilter` constants the spec's `ACCEPT`/`SKIP` refer to. -/
def FILTER_ACCEPT : Nat := 1

/-- Modelled from the spec: see `FILTER_ACCEPT`. -/
def FILTER_REJECT : Nat := 2

/-- Modelled from the spec: see `FILTER_ACCEPT`. -/
def FILTER_SKIP : Nat := 3

/-- The three filter variants of `treewalker.rs` used by `NodeIterator`:
no filter, a native Rust predicate (cannot fail), or a JS callback
(may fail with an `Error`). -/
inductive Filter where
  | FilterNone
  | FilterNative (f : Pos → Nat)
  | FilterJS (f : Pos → Except Error Nat)

/-- The `NodeIterator` state (the `Reflector` plumbing field is omitted;
`Cell` contents are carried directly). -/
structure NodeIterator where
  root_node : Pos
  reference_node : Pos
  pointer_before_reference_node : Bool
  what_to_show : Nat
  filter : Filter

/-- `NodeIterator::new_inherited`. -/
def new_inherited (root_node : Pos) (what_to_show : Nat) (filter : Filter) :
    NodeIterator :=
  { root_node := root_node
    reference_node := root_node
    pointer_before_reference_node := true
    what_to_show := what_to_show
    filter := filter }

/-- `is_root_node`: identity comparison of the handle against the root. -/
def is_root_node (it : NodeIterator) (p : Pos) : Bool :=
  p = it.root_node

/-- The ancestor-climbing `while` loop inside `following` together with the
root/sibling check that follows it (nodeiterator.rs lines 140-153).  Each
loop iteration replaces the candidate by its parent, i.e. strips the last
index of its path, so the loop is phrased as structural recursion over the
reversed candidate path `rev` (the candidate is `rev.reverse`); stripping
the parent is taking the tail of `rev`, and a candidate with no parent is
`rev = []`, where the code returns `None`. -/
def climbRev (t : DomTree) (it : NodeIterator) (rev : List Nat) : Option Pos :=
  if ¬ is_root_node it rev.reverse ∧ next_sibling t rev.reverse = none then
    match rev with
    | [] => none
    | _ :: rest => climbRev t it rest
  else if is_root_node it rev.reverse then none
  else next_sibling t rev.reverse

/-- The climbing loop on a candidate path. -/
def climb (t : DomTree) (it : NodeIterator) (candidate : Pos) : Option Pos :=
  climbRev t it candidate.reverse

/-- `following`: next node in document order. -/
def following (t : DomTree) (it : NodeIterator) (p : Pos) : Option Pos :=
  match first_child t p with
  | some c => some c
  | none =>
    match next_sibling t p with
    | some s => some s
    | none => climb t it p

/-- Relative path of the last inclusive descendant: the
`while node.first_child().is_some() { node = node.last_child() }` loop of
`preceding`, expressed structurally on the subtree. -/
def lastLeafRel : DomTree → Pos
  | .node _ cs =>
    match h : cs.getLast? with
    | none => []
    | some c => (cs.length - 1) :: lastLeafRel c
decreasing_by
  rename_i k cs
  have hm : c ∈ cs := by
    rcases List.getLast?_eq_some_iff.1 h with ⟨l', hl⟩
    subst hl
    simp
  have hs := List.sizeOf_lt_of_mem hm
  simp only [DomTree.node.sizeOf_spec]
  omega

/-- `preceding`: previous node in document order, bounded below by the root. -/
def preceding (t : DomTree) (it : NodeIterator) (p : Pos) : Option Pos :=
  if is_root_node it p then none
  else
    match prev_sibling p with
    | some sibling =>
      match subtreeAt t sibling with
      | some st => some (sibling ++ lastLeafRel st)
      | none => some sibling
    | none => parent_node p

/-- `accept_node` (the "filter node" algorithm). -/
def accept_node (t : DomTree) (it : NodeIterator) (p : Pos) :
    Except Error Nat :=
  let n : Nat := kindAt t p - 1
  if it.what_to_show &&& (1 <<< n) = 0 then
    Except.ok FILTER_SKIP
  else
    match it.filter with
    | .FilterNone => Except.ok FILTER_ACCEPT
    | .FilterNative f => Except.ok (f p)
    | .FilterJS callback => callback p

inductive Direction where
  | Next
  | Previous

/-- Outcome of a `traverse` call: success with an optional node and the
iterator state after the call, a filter error with the state after the call,
or fuel exhaustion of the model (the Rust loop has no such case; its absence
for sufficient fuel is the termination property). -/
inductive TraverseOutcome where
  | ok (result : Option Pos) (st : NodeIterator)
  | err (e : Error) (st : NodeIterator)
  | fuelOut

/-- One movement substep of the `traverse` loop: flip the before flag, or
move to the following/preceding node; `none` is the "return null" case. -/
def stepCandidate (t : DomTree) (it : NodeIterator) (dir : Direction)
    (node : Pos) (before_node : Bool) : Option (Pos × Bool) :=
  match dir, before_node with
  | .Next, false => (following t it node).map fun n => (n, false)
  | .Next, true => some (node, false)
  | .Previous, true => (preceding t it node).map fun n => (n, true)
  | .Previous, false => some (node, true)

/-- The `loop` of `traverse`, with fuel. -/
def traverseAux (t : DomTree) (it : NodeIterator) (dir : Direction) :
    Nat → Pos → Bool → TraverseOutcome
  | 0, _, _ => .fuelOut
  | fuel + 1, node, before_node =>
    match stepCandidate t it dir node before_node with
    | none => .ok none it
    | some (node', before') =>
      match accept_node t it node' with
      | .error e => .err e it
      | .ok r =>
        if r = FILTER_ACCEPT then
          .ok (some node')
            { it with reference_node := node'
                      pointer_before_reference_node := before' }
        else
          traverseAux t it dir fuel node' before'

/-- `traverse`: read the cursor, run the loop, and (inside `traverseAux`)
write the cursor back only on an accepted node. -/
def traverse (t : DomTree) (it : NodeIterator) (dir : Direction)
    (fuel : Nat) : TraverseOutcome :=
  traverseAux t it dir fuel it.reference_node it.pointer_before_reference_node

/-- `next_node` / `NextNode`. -/
def next_node (t : DomTree) (it : NodeIterator) (fuel : Nat) :
    TraverseOutcome :=
  traverse t it .Next fuel

/-- `prev_node` / `PreviousNode`. -/
def prev_node (t : DomTree) (it : NodeIterator) (fuel : Nat) :
    TraverseOutcome :=
  traverse t it .Previous fuel

/-- `GetFilter`: the `fail!` branch is modelled as an `Except.error`
carrying the panic message. -/
def GetFilter (it : NodeIterator) :
    Except String (Option (Pos → Except Error Nat)) :=
  match it.filter with
  | .FilterNone => Except.ok none
  | .FilterJS nf => Except.ok (some nf)
  | .FilterNative _ =>
    Except.error "Cannot convert native node filter to DOM NodeFilter"

/-- The node returned by an outcome, if any. -/
def outcomeNode : TraverseOutcome → Option Pos
  | .ok r _ => r
  | .err _ _ => none
  | .fuelOut => none

/-- The iterator state carried by an outcome (with a fallback for the
model-only fuel case). -/
def outcomeState (dflt : NodeIterator) : TraverseOutcome → NodeIterator
  | .ok _ st => st
  | .err _ st => st
  | .fuelOut => dflt

/-- The before flag an accepted step installs, as a function of the
direction: `false` for `Next`, `true` for `Previous`. -/
def dirBefore : Direction → Bool
  | .Next => false
  | .Previous => true

/-- The before flag a movement substep hands on is forced by the direction:
`false` for `Next`, `true` for `Previous`. -/
theorem stepCandidate_before (t : DomTree) (it : NodeIterator) (dir : Direction)
    (node : Pos) (before : Bool) (node' : Pos) (before' : Bool)
    (h : stepCandidate t it dir node before = some (node', before')) :
    before' = dirBefore dir := by
  cases dir <;> cases before <;> simp only [stepCandidate] at h
  · obtain ⟨x, -, hx⟩ := Option.map_eq_some'.1 h
    cases hx
    rfl
  · cases h
    rfl
  · cases h
    rfl
  · obtain ⟨x, -, hx⟩ := Option.map_eq_some'.1 h
    cases hx
    rfl

/-- A `traverse` loop run that returns `Ok(None)` hands back the iterator
state it started from. -/
theorem traverseAux_ok_none (t : DomTree) (it : NodeIterator) (dir : Direction) :
    ∀ fuel node before st,
      traverseAux t it dir fuel node before = .ok none st → st = it := by
  intro fuel
  induction fuel with
  | zero => intro node before st h; simp [traverseAux] at h
  | succ m ih =>
    intro node before st h
    simp only [traverseAux] at h
    split at h
    · cases h; rfl
    · split at h
      · cases h
      · split at h
        · simp at h
        · exact ih _ _ _ h

/-- A `traverse` loop run that fails hands back the iterator state it started
from, and the error is one the filter step produced on some node. -/
theorem traverseAux_err (t : DomTree) (it : NodeIterator) (dir : Direction) :
    ∀ fuel node before e st,
      traverseAux t it dir fuel node before = .err e st →
        st = it ∧ ∃ p, accept_node t it p = .error e := by
  intro fuel
  induction fuel with
  | zero => intro node before e st h; simp [traverseAux] at h
  | succ m ih =>
    intro node before e st h
    simp only [traverseAux] at h
    split at h
    · cases h
    · rename_i node' before' _
      split at h
      · rename_i e' he
        cases h
        exact ⟨rfl, node', he⟩
      · split at h
        · simp at h
        · exact ih _ _ _ _ h

/-- A `traverse` loop run that returns an accepted node updates
`reference_node` to that node and the before flag according to the direction,
in the same step, leaving every other field as it was; the returned node
passed the filter with `FILTER_ACCEPT`. -/
theorem traverseAux_ok_some (t : DomTree) (it : NodeIterator) (dir : Direction) :
    ∀ fuel node before n st,
      traverseAux t it dir fuel node before = .ok (some n) st →
        st = { it with
                reference_node := n
                pointer_before_reference_node := dirBefore dir } ∧
        accept_node t it n = .ok FILTER_ACCEPT := by
  intro fuel
  induction fuel with
  | zero => intro node before n st h; simp [traverseAux] at h
  | succ m ih =>
    intro node before n st h
    simp only [traverseAux] at h
    split at h
    · simp at h
    · rename_i node' before' hstep
      split at h
      · cases h
      · rename_i r hr
        split at h
        · rename_i hacc
          have hb := stepCandidate_before t it dir node before node' before' hstep
          rw [TraverseOutcome.ok.injEq] at h
          obtain ⟨h1, h2⟩ := h
          injection h1 with h1
          subst h1
          subst h2
          subst hb
          exact ⟨rfl, hacc ▸ hr⟩
        · exact ih _ _ _ _ h

/-- A clear mask bit makes the code's bit test come out zero. -/
theorem and_shift_eq_zero_of_testBit_false (m k : Nat)
    (h : Nat.testBit m k = false) : m &&& (1 <<< k) = 0 := by
  rw [Nat.one_shiftLeft, Nat.and_two_pow, h]
  simp

/-- A set mask bit makes the code's bit test come out nonzero. -/
theorem and_shift_ne_zero_of_testBit_true (m k : Nat)
    (h : Nat.testBit m k = true) : m &&& (1 <<< k) ≠ 0 := by
  rw [Nat.one_shiftLeft, Nat.and_two_pow, h]
  simp only [Bool.toNat_true, one_mul]
  exact Nat.pos_iff_ne_zero.mp (Nat.two_pow_pos k)

/-- `accept_node` errors only by propagating, unchanged, the error of the
installed JS callback on the classified node. -/
theorem accept_node_error (t : DomTree) (it : NodeIterator) (p : Pos)
    (e : Error) (h : accept_node t it p = .error e) :
    ∃ f, it.filter = .FilterJS f ∧ f p = .error e := by
  simp only [accept_node] at h
  split at h
  · cases h
  · split at h
    · cases h
    · cases h
    · rename_i f hf
      exact ⟨f, hf, h⟩

/-- C1: Atomicity of stepping: for every cursor state, if `next`/`previous`
returns `Ok(None)` or fails with a filter error, the whole iterator state —
in particular `reference_node` and `pointer_before_reference_node` — is left
exactly as it was; if it returns `Ok(Some(node))`, the two cursor fields are
updated together in the same step (`reference_node` to the returned node, the
flag to the direction's landing side) and no other field changes. -/
theorem traverse_atomic (t : DomTree) (it : NodeIterator) (dir : Direction)
    (fuel : Nat) :
    (∀ st, traverse t it dir fuel = .ok none st → st = it) ∧
    (∀ e st, traverse t it dir fuel = .err e st → st = it) ∧
    (∀ n st, traverse t it dir fuel = .ok (some n) st →
      st = { it with reference_node := n
                     pointer_before_reference_node := dirBefore dir }) :=
  ⟨fun _ h => traverseAux_ok_none t it dir _ _ _ _ h,
   fun _ _ h => (traverseAux_err t it dir _ _ _ _ _ h).1,
   fun _ _ h => (traverseAux_ok_some t it dir _ _ _ _ _ h).1⟩

/-- Witness for C1: a failing JS filter leaves a concrete cursor unchanged. -/
theorem traverse_atomic_witness :
    new_inherited [] 1 (Filter.FilterJS fun _ => Except.error 7) =
      new_inherited [] 1 (Filter.FilterJS fun _ => Except.error 7) :=
  (traverse_atomic (DomTree.node 1 [])
      (new_inherited [] 1 (Filter.FilterJS fun _ => Except.error 7))
      .Next 5).2.1 7
    (new_inherited [] 1 (Filter.FilterJS fun _ => Except.error 7)) rfl

/-- C3: Mask correctness: a node whose mask bit `kind - 1` is clear in
`what_to_show` is never the node returned by `next`/`previous`, for every
tree, direction, fuel and installed filter. -/
theorem mask_correctness (t : DomTree) (it : NodeIterator) (dir : Direction)
    (fuel : Nat) (n : Pos) (st : NodeIterator)
    (hbit : Nat.testBit it.what_to_show (kindAt t n - 1) = false) :
    traverse t it dir fuel ≠ .ok (some n) st := by
  intro h
  have hacc := (traverseAux_ok_some t it dir _ _ _ _ _ h).2
  simp only [accept_node,
    if_pos (and_shift_eq_zero_of_testBit_false _ _ hbit)] at hacc
  exact absurd (Except.ok.injEq .. ▸ hacc) (by simp [FILTER_SKIP, FILTER_ACCEPT])

/-- Witness for C3: a kind-2 node is invisible under mask 1. -/
theorem mask_correctness_witness :
    traverse (DomTree.node 2 []) (new_inherited [] 1 Filter.FilterNone)
        .Next 5 ≠
      .ok (some []) (new_inherited [] 1 Filter.FilterNone) :=
  mask_correctness (DomTree.node 2 []) (new_inherited [] 1 Filter.FilterNone)
    .Next 5 [] (new_inherited [] 1 Filter.FilterNone) (by decide)

/-- C4: Filter short-circuit: when the mask bit of the node's kind is clear,
`accept_node` returns `SKIP` whatever filter is installed (so the
user-supplied predicate is never consulted); when the bit is set and no
filter is installed, it returns `ACCEPT`. -/
theorem filter_short_circuit (t : DomTree) (it : NodeIterator) (p : Pos) :
    (Nat.testBit it.what_to_show (kindAt t p - 1) = false →
      ∀ F, accept_node t { it with filter := F } p = .ok FILTER_SKIP) ∧
    (Nat.testBit it.what_to_show (kindAt t p - 1) = true →
      it.filter = .FilterNone →
      accept_node t it p = .ok FILTER_ACCEPT) := by
  constructor
  · intro h F
    simp only [accept_node]
    rw [if_pos (and_shift_eq_zero_of_testBit_false _ _ h)]
  · intro h hf
    simp only [accept_node]
    rw [if_neg (and_shift_ne_zero_of_testBit_true _ _ h), hf]

/-- Witness for C4: both halves at concrete inputs. -/
theorem filter_short_circuit_witness :
    accept_node (DomTree.node 2 [])
        { new_inherited [] 1 Filter.FilterNone with
            filter := Filter.FilterNative fun _ => 2 } [] =
      .ok FILTER_SKIP ∧
    accept_node (DomTree.node 1 []) (new_inherited [] 1 Filter.FilterNone) [] =
      .ok FILTER_ACCEPT :=
  ⟨(filter_short_circuit (DomTree.node 2 [])
        (new_inherited [] 1 Filter.FilterNone) []).1 (by decide)
      (Filter.FilterNative fun _ => 2),
   (filter_short_circuit (DomTree.node 1 [])
        (new_inherited [] 1 Filter.FilterNone) []).2 (by decide) rfl⟩

/-- C5: Error propagation: a `next`/`previous` call fails only by propagating,
unchanged, an error the installed JS callback produced on some classified
node; with a filter that cannot fail (none or native), no call ever fails —
boundary and all-skipped runs resolve to `Ok(None)`, never to an error. -/
theorem error_propagation (t : DomTree) (it : NodeIterator) (dir : Direction)
    (fuel : Nat) :
    (∀ e st, traverse t it dir fuel = .err e st →
      ∃ f p, it.filter = .FilterJS f ∧ f p = .error e) ∧
    ((∀ f, it.filter ≠ .FilterJS f) →
      ∀ e st, traverse t it dir fuel ≠ .err e st) := by
  have key : ∀ e st, traverse t it dir fuel = .err e st →
      ∃ f p, it.filter = .FilterJS f ∧ f p = .error e := by
    intro e st h
    obtain ⟨-, p, hp⟩ := traverseAux_err t it dir _ _ _ _ _ h
    obtain ⟨f, hf, he⟩ := accept_node_error t it p e hp
    exact ⟨f, p, hf, he⟩
  refine ⟨key, fun hnf e st h => ?_⟩
  obtain ⟨f, p, hf, -⟩ := key e st h
  exact hnf f hf

/-- Witness for C5: a concrete failing JS callback's error surfaces, and a
filterless cursor never errs. -/
theorem error_propagation_witness :
    (∃ f p, (Filter.FilterJS fun _ => (Except.error 7 : Except Error Nat)) =
        Filter.FilterJS f ∧ f p = Except.error 7) ∧
    ∀ e st, traverse (DomTree.node 1 []) (new_inherited [] 1 Filter.FilterNone)
        .Next 5 ≠ .err e st :=
  ⟨(error_propagation (DomTree.node 1 [])
      (new_inherited [] 1 (Filter.FilterJS fun _ => Except.error 7))
      .Next 5).1 7
      (new_inherited [] 1 (Filter.FilterJS fun _ => Except.error 7)) rfl,
   fun e st => (error_propagation (DomTree.node 1 [])
      (new_inherited [] 1 Filter.FilterNone) .Next 5).2
      (fun f h => by cases h) e st⟩

/-- C6: Backward boundary: whenever the cursor sits at the root with the
before flag set, `previous()` returns `Ok(None)` and leaves the whole state
unchanged, for every tree shape, mask and filter. -/
theorem previous_at_root_boundary (t : DomTree) (it : NodeIterator)
    (fuel : Nat) (h1 : it.reference_node = it.root_node)
    (h2 : it.pointer_before_reference_node = true) (hf : 1 ≤ fuel) :
    prev_node t it fuel = .ok none it := by
  obtain ⟨m, rfl⟩ : ∃ m, fuel = m + 1 := ⟨fuel - 1, by omega⟩
  unfold prev_node traverse
  rw [h1, h2]
  simp [traverseAux, stepCandidate, preceding, is_root_node]

/-- Witness for C6: a freshly created cursor steps backward to `None`. -/
theorem previous_at_root_boundary_witness :
    prev_node (DomTree.node 1 [DomTree.node 1 []])
        (new_inherited [] 1 Filter.FilterNone) 5 =
      .ok none (new_inherited [] 1 Filter.FilterNone) :=
  previous_at_root_boundary (DomTree.node 1 [DomTree.node 1 []])
    (new_inherited [] 1 Filter.FilterNone) 5 rfl rfl (by omega)

/-- C9: `GetFilter` returns `None` for no filter and `Some(callback)` for a
JS filter, but hits the `fail!` panic (modelled as the error branch) exactly
when the cursor holds a native Rust predicate. -/
theorem GetFilter_partiality (it : NodeIterator) :
    (it.filter = .FilterNone → GetFilter it = .ok none) ∧
    (∀ nf, it.filter = .FilterJS nf → GetFilter it = .ok (some nf)) ∧
    (∀ f, it.filter = .FilterNative f →
      GetFilter it =
        .error "Cannot convert native node filter to DOM NodeFilter") := by
  refine ⟨fun h => ?_, fun nf h => ?_, fun f h => ?_⟩ <;>
    simp [GetFilter, h]

/-- Witness for C9: the panic branch is reached on a native filter. -/
theorem GetFilter_partiality_witness :
    GetFilter (new_inherited [] 1 (Filter.FilterNative fun _ => 1)) =
      .error "Cannot convert native node filter to DOM NodeFilter" :=
  (GetFilter_partiality
      (new_inherited [] 1 (Filter.FilterNative fun _ => 1))).2.2
    (fun _ => 1) rfl

/-- `accept_node` only reads the mask and the filter of the iterator. -/
theorem accept_node_congr (t : DomTree) (it it' : NodeIterator) (p : Pos)
    (hw : it.what_to_show = it'.what_to_show) (hf : it.filter = it'.filter) :
    accept_node t it p = accept_node t it' p := by
  simp only [accept_node, hw, hf]

/-- Flat-list scenario: document root with three kind-1 children
A = [0], B = [1], C = [2]; the iterator is rooted at the document root with
an all-ones 32-bit mask and no filter. -/
def flatTree : DomTree :=
  .node 1 [.node 1 [], .node 1 [], .node 1 []]

/-- Fresh cursor for the flat-list scenario. -/
def flatIt0 : NodeIterator := new_inherited [] 4294967295 .FilterNone

/-- Cursor after one `next()` on the flat list. -/
def flatIt1 : NodeIterator := outcomeState flatIt0 (next_node flatTree flatIt0 9)

/-- Cursor after two `next()` on the flat list. -/
def flatIt2 : NodeIterator := outcomeState flatIt0 (next_node flatTree flatIt1 9)

/-- Cursor after three `next()` on the flat list. -/
def flatIt3 : NodeIterator := outcomeState flatIt0 (next_node flatTree flatIt2 9)

/-- Cursor after four `next()` on the flat list. -/
def flatIt4 : NodeIterator := outcomeState flatIt0 (next_node flatTree flatIt3 9)

/-- C7 counterexample: on the flat list the first three `next()` calls
produce [a, b, c] = [root, A, B] = [[], [0], [1]]; the claim predicts the
following `previous()` yields b = [0], but the code yields [1] = c again
(the backward step first consumes the before-flag flip). -/
theorem symmetry_counterexample :
    outcomeNode (next_node flatTree flatIt0 9) = some [] ∧
    outcomeNode (next_node flatTree flatIt1 9) = some [0] ∧
    outcomeNode (next_node flatTree flatIt2 9) = some [1] ∧
    outcomeNode (prev_node flatTree flatIt3 9) = some [1] ∧
    outcomeNode (prev_node flatTree flatIt3 9) ≠ some [0] := by
  decide

/-- C7 amended: a `previous()` issued right after a successful `next()`
re-returns the very node that `next()` returned, moving the cursor from
after that node to before it; forward-then-backward does not step back to
the previously returned node, so the first backward output is c, not b. -/
theorem next_then_previous_same_node (t : DomTree) (it st : NodeIterator)
    (n : Pos) (fuel fuel' : Nat)
    (h : traverse t it .Next fuel = .ok (some n) st) (hf : 1 ≤ fuel') :
    traverse t st .Previous fuel' =
      .ok (some n) { st with pointer_before_reference_node := true } := by
  obtain ⟨hst, hacc⟩ := traverseAux_ok_some t it .Next _ _ _ _ _ h
  obtain ⟨m, rfl⟩ : ∃ m, fuel' = m + 1 := ⟨fuel' - 1, by omega⟩
  subst hst
  have hacc' : accept_node t
      { root_node := it.root_node
        reference_node := n
        pointer_before_reference_node := false
        what_to_show := it.what_to_show
        filter := it.filter } n = .ok FILTER_ACCEPT := by
    rw [accept_node_congr t
      { root_node := it.root_node
        reference_node := n
        pointer_before_reference_node := false
        what_to_show := it.what_to_show
        filter := it.filter } it n rfl rfl]
    exact hacc
  simp only [traverse, dirBefore, traverseAux, stepCandidate]
  rw [hacc']
  simp

/-- Witness for C7's amended claim: on the flat list, after the first
`next()` returned the root, `previous()` returns the root again. -/
theorem next_then_previous_same_node_witness :
    traverse flatTree flatIt1 .Previous 5 =
      .ok (some []) { flatIt1 with pointer_before_reference_node := true } :=
  next_then_previous_same_node flatTree flatIt0 flatIt1 [] 9 5 rfl (by omega)

/-- C8 counterexample: with the flat list, an all-ones mask and no filter,
the very first `next()` on a fresh cursor yields the root itself, not A. -/
theorem flat_list_counterexample :
    outcomeNode (next_node flatTree flatIt0 9) = some [] ∧
    outcomeNode (next_node flatTree flatIt0 9) ≠ some [0] := by
  decide

/-- C8 amended: on the flat list with mask all and no filter, successive
`next()` calls yield root, A, B, C, then `None` (state unchanged); a
subsequent `previous()` yields C. -/
theorem flat_list_scenario :
    next_node flatTree flatIt0 9 = .ok (some []) flatIt1 ∧
    next_node flatTree flatIt1 9 = .ok (some [0]) flatIt2 ∧
    next_node flatTree flatIt2 9 = .ok (some [1]) flatIt3 ∧
    next_node flatTree flatIt3 9 = .ok (some [2]) flatIt4 ∧
    next_node flatTree flatIt4 9 = .ok none flatIt4 ∧
    outcomeNode (prev_node flatTree flatIt4 9) = some [2] :=
  ⟨rfl, rfl, rfl, rfl, rfl, rfl⟩

/-- Document for the subtree-escape bug: root with two childless kind-1
children r = [0] and s = [1]; the iterator is rooted at r. -/
def escTree : DomTree := .node 1 [.node 1 [], .node 1 []]

/-- Fresh cursor rooted at the childless first child of `escTree`. -/
def escIt0 : NodeIterator := new_inherited [0] 4294967295 .FilterNone

/-- Cursor after one `next()` on `escTree`. -/
def escIt1 : NodeIterator := outcomeState escIt0 (next_node escTree escIt0 9)

/-- Cursor after two `next()` on `escTree`. -/
def escIt2 : NodeIterator := outcomeState escIt0 (next_node escTree escIt1 9)

/-- C2 (code bug): with the iterator rooted at the childless node r = [0]
that has a next sibling s = [1], the second `next()` returns s and moves
`reference_node` to it, although s is outside the subtree rooted at r —
`following` checks the root boundary only while climbing ancestors, not when
taking the reference node's own next sibling. -/
theorem subtree_escape :
    next_node escTree escIt0 9 = .ok (some [0]) escIt1 ∧
    next_node escTree escIt1 9 = .ok (some [1]) escIt2 ∧
    escIt2.reference_node = [1] ∧
    ¬ ([0] <+: ([1] : Pos)) :=
  ⟨rfl, rfl, rfl, by decide⟩

/-- Strict document (preorder) order on paths: a strict ancestor precedes its
descendants, and otherwise the first differing child index decides. -/
def docLt : Pos → Pos → Bool
  | [], [] => false
  | [], _ :: _ => true
  | _ :: _, [] => false
  | a :: p, b :: q => a < b || (a == b && docLt p q)

theorem docLt_irrefl : ∀ p : Pos, docLt p p = false
  | [] => rfl
  | a :: p => by simp [docLt, docLt_irrefl p]

theorem docLt_trans (p : Pos) : ∀ q r : Pos,
    docLt p q = true → docLt q r = true → docLt p r = true := by
  induction p with
  | nil =>
    intro q r h1 h2
    cases q with
    | nil => cases h1
    | cons b q' =>
      cases r with
      | nil => cases h2
      | cons c r' => rfl
  | cons a p' ih =>
    intro q r h1 h2
    cases q with
    | nil => cases h1
    | cons b q' =>
      cases r with
      | nil => cases h2
      | cons c r' =>
        simp only [docLt, Bool.or_eq_true, Bool.and_eq_true, beq_iff_eq,
          decide_eq_true_eq] at h1 h2 ⊢
        rcases h1 with h1 | ⟨rfl, h1⟩
        · rcases h2 with h2 | ⟨rfl, h2⟩
          · exact Or.inl (Nat.lt_trans h1 h2)
          · exact Or.inl h1
        · rcases h2 with h2 | ⟨rfl, h2⟩
          · exact Or.inl h2
          · exact Or.inr ⟨rfl, ih q' r' h1 h2⟩

theorem docLt_append (r : Pos) : ∀ p q : Pos,
    docLt (r ++ p) (r ++ q) = docLt p q := by
  induction r with
  | nil => intro p q; rfl
  | cons a r' ih => intro p q; simp [docLt, ih, Nat.lt_irrefl]

/-- A node strictly precedes every node of its own subtree. -/
theorem docLt_append_cons (p : Pos) (i : Nat) (s : Pos) :
    docLt p (p ++ i :: s) = true := by
  have h := docLt_append p [] (i :: s)
  simpa using h

/-- Everything in the subtree of a node precedes everything in the subtree
of its next sibling. -/
theorem docLt_sibling (r : Pos) (i : Nat) (s s' : Pos) :
    docLt (r ++ i :: s) (r ++ (i + 1) :: s') = true := by
  rw [docLt_append]
  simp [docLt, Nat.lt_succ_self]

theorem subtreeAt_append (p : Pos) : ∀ (t : DomTree) (q : Pos),
    subtreeAt t (p ++ q) = (subtreeAt t p).bind fun st => subtreeAt st q := by
  induction p with
  | nil =>
    intro t q
    cases t with
    | node k cs => rfl
  | cons i p' ih =>
    intro t q
    cases t with
    | node k cs =>
      simp only [List.cons_append, subtreeAt]
      cases hc : cs[i]? with
      | none => rfl
      | some c => exact ih c q

theorem valid_append_left (t : DomTree) (p q : Pos)
    (h : valid t (p ++ q) = true) : valid t p = true := by
  simp only [valid, subtreeAt_append] at h
  cases hs : subtreeAt t p with
  | none => rw [hs] at h; simp at h
  | some st => simp [valid, hs]

/-- All node paths of the document, in preorder. -/
def positionsFrom : DomTree → List Pos
  | .node _ cs => [] :: positionsChildren 0 cs
where
  /-- Paths of the nodes of the children `cs`, the first child carrying
  index `i`. -/
  positionsChildren : Nat → List DomTree → List Pos
  | _, [] => []
  | i, c :: cs =>
    (positionsFrom c).map (fun q => i :: q) ++ positionsChildren (i + 1) cs

theorem mem_positionsChildren (q : Pos) (c : DomTree) :
    ∀ (cs : List DomTree) (j i : Nat), cs[i]? = some c →
      q ∈ positionsFrom c → (j + i) :: q ∈ positionsFrom.positionsChildren j cs := by
  intro cs
  induction cs with
  | nil => intro j i hc _; simp at hc
  | cons c0 cs' ih =>
    intro j i hc hq
    cases i with
    | zero =>
      simp only [List.getElem?_cons_zero, Option.some.injEq] at hc
      subst hc
      simp only [positionsFrom.positionsChildren, List.mem_append, List.mem_map]
      exact Or.inl ⟨q, hq, by simp⟩
    | succ i' =>
      simp only [List.getElem?_cons_succ] at hc
      have h := ih (j + 1) i' hc hq
      simp only [positionsFrom.positionsChildren, List.mem_append]
      right
      have he : j + (i' + 1) = (j + 1) + i' := by omega
      rw [he]
      exact h

theorem mem_positionsFrom : ∀ (t : DomTree) (q : Pos),
    valid t q = true → q ∈ positionsFrom t
  | .node k cs, [], _ => by simp [positionsFrom]
  | .node k cs, i :: q', h => by
    simp only [valid, subtreeAt] at h
    cases hc : cs[i]? with
    | none => rw [hc] at h; simp at h
    | some c =>
      rw [hc] at h
      have hq : q' ∈ positionsFrom c := mem_positionsFrom c q' h
      have hm := mem_positionsChildren q' c cs 0 i hc hq
      simpa [positionsFrom] using hm
termination_by t => sizeOf t
decreasing_by
  have hmem : c ∈ cs := List.getElem?_mem hc
  have hs := List.sizeOf_lt_of_mem hmem
  simp only [DomTree.node.sizeOf_spec]
  omega

theorem subtreeAt_singleton (k : Nat) (cs : List DomTree) (i : Nat) :
    subtreeAt (.node k cs) [i] = cs[i]? := by
  simp only [subtreeAt]
  cases hc : cs[i]? with
  | none => rfl
  | some c => cases c; rfl

/-- A successful `first_child` returns child 0, a node of the document. -/
theorem first_child_spec (t : DomTree) (p y : Pos)
    (h : first_child t p = some y) :
    y = p ++ [0] ∧ valid t y = true := by
  simp only [first_child] at h
  split at h
  · cases h
  · rename_i k c cs hs
    cases h
    refine ⟨rfl, ?_⟩
    simp [valid, subtreeAt_append, hs, subtreeAt_singleton]
  · cases h

/-- A successful `next_sibling` moves to the next child index under the same
parent, a node of the document. -/
theorem next_sibling_spec (t : DomTree) (p y : Pos)
    (h : next_sibling t p = some y) :
    ∃ r i, p = r ++ [i] ∧ y = r ++ [i + 1] ∧ valid t y = true := by
  simp only [next_sibling] at h
  split at h
  · cases h
  · rename_i i hlast
    split at h
    · rename_i k cs hs
      split at h
      · rename_i hlt
        cases h
        refine ⟨p.dropLast, i, ?_, rfl, ?_⟩
        · exact (List.dropLast_append_getLast? i (Option.mem_def.mpr hlast)).symm
        · have hc : cs[i + 1]?.isSome = true := by
            simp [List.getElem?_eq_getElem hlt]
          simp only [valid, subtreeAt_append, hs]
          show (subtreeAt (DomTree.node k cs) [i + 1]).isSome = true
          rw [subtreeAt_singleton]
          exact hc
      · cases h
    · cases h

/-- A successful `prev_sibling` moves to the previous child index under the
same parent. -/
theorem prev_sibling_spec (p sib : Pos) (h : prev_sibling p = some sib) :
    ∃ r j, p = r ++ [j + 1] ∧ sib = r ++ [j] := by
  simp only [prev_sibling] at h
  split at h
  · cases h
  · cases h
  · rename_i j hlast
    cases h
    exact ⟨p.dropLast, j,
      (List.dropLast_append_getLast? (j + 1) (Option.mem_def.mpr hlast)).symm,
      rfl⟩

/-- A node of the document next to a later sibling: decrementing the final
index keeps the path in the document. -/
theorem valid_prev_sibling (t : DomTree) (r : Pos) (j : Nat)
    (h : valid t (r ++ [j + 1]) = true) : valid t (r ++ [j]) = true := by
  simp only [valid, subtreeAt_append] at h ⊢
  cases hs : subtreeAt t r with
  | none => rw [hs] at h; simp at h
  | some st =>
    rw [hs] at h
    cases st with
    | node k cs =>
      replace h : (subtreeAt (DomTree.node k cs) [j + 1]).isSome = true := h
      rw [subtreeAt_singleton] at h
      show (subtreeAt (DomTree.node k cs) [j]).isSome = true
      rw [subtreeAt_singleton]
      cases hc : cs[j + 1]? with
      | none => rw [hc] at h; simp at h
      | some c =>
        have hlt : j + 1 < cs.length := by
          by_contra hge
          push_neg at hge
          rw [List.getElem?_eq_none hge] at hc
          cases hc
        have hj : j < cs.length := by omega
        simp [List.getElem?_eq_getElem hj]

/-- What the climbing loop can return: the next sibling of some
prefix-ancestor of the candidate it started from. -/
theorem climbRev_spec (t : DomTree) (it : NodeIterator) :
    ∀ (rev : List Nat) (y : Pos), climbRev t it rev = some y →
      ∃ s : List Nat, s.reverse <+: rev.reverse ∧
        next_sibling t s.reverse = some y := by
  intro rev
  induction rev with
  | nil =>
    intro y h
    simp only [climbRev] at h
    split at h
    · cases h
    · split at h
      · cases h
      · exact ⟨[], List.prefix_refl _, h⟩
  | cons i rest ih =>
    intro y h
    simp only [climbRev] at h
    split at h
    · obtain ⟨s, hpre, hns⟩ := ih y h
      refine ⟨s, hpre.trans ?_, hns⟩
      have he : (i :: rest).reverse = rest.reverse ++ [i] := by simp
      rw [he]
      exact List.prefix_append _ _
    · split at h
      · cases h
      · exact ⟨i :: rest, List.prefix_refl _, h⟩

/-- `climb` returns the next sibling of a prefix-ancestor of its argument. -/
theorem climb_spec (t : DomTree) (it : NodeIterator) (p y : Pos)
    (h : climb t it p = some y) :
    ∃ a : Pos, a <+: p ∧ next_sibling t a = some y := by
  obtain ⟨s, hpre, hns⟩ := climbRev_spec t it p.reverse y h
  rw [List.reverse_reverse] at hpre
  exact ⟨s.reverse, hpre, hns⟩

/-- `following` moves strictly forward in document order and stays on nodes
of the document. -/
theorem following_advances (t : DomTree) (it : NodeIterator) (p y : Pos)
    (h : following t it p = some y) :
    docLt p y = true ∧ valid t y = true := by
  simp only [following] at h
  split at h
  · rename_i c hc
    cases h
    obtain ⟨rfl, hv⟩ := first_child_spec t p y hc
    exact ⟨docLt_append_cons p 0 [], hv⟩
  · split at h
    · rename_i s hs
      cases h
      obtain ⟨r, i, rfl, rfl, hv⟩ := next_sibling_spec t p y hs
      refine ⟨?_, hv⟩
      have hd := docLt_sibling r i [] []
      simpa using hd
    · obtain ⟨a, hpre, hns⟩ := climb_spec t it p y h
      obtain ⟨r, i, ha, rfl, hv⟩ := next_sibling_spec t a y hns
      refine ⟨?_, hv⟩
      obtain ⟨rest, rfl⟩ := hpre
      subst ha
      have hd := docLt_sibling r i rest []
      simpa using hd

/-- The descend-to-last-leaf path always lands on a node of the subtree. -/
theorem subtreeAt_lastLeafRel : ∀ st : DomTree,
    (subtreeAt st (lastLeafRel st)).isSome = true := by
  intro st
  induction st using lastLeafRel.induct with
  | case1 k cs hl =>
    rw [lastLeafRel]
    split
    · simp [subtreeAt]
    · rename_i c hl2
      rw [hl] at hl2
      cases hl2
  | case2 k cs c hl ih =>
    rw [lastLeafRel]
    split
    · rename_i hl2
      rw [hl] at hl2
      cases hl2
    · rename_i c2 hl2
      rw [hl] at hl2
      obtain rfl : c = c2 := by injection hl2
      have hc : cs[cs.length - 1]? = some c := by
        rw [← List.getLast?_eq_getElem?]
        exact hl
      simp only [subtreeAt, hc]
      exact ih

/-- `preceding` moves strictly backward in document order and stays on nodes
of the document. -/
theorem preceding_retreats (t : DomTree) (it : NodeIterator) (p y : Pos)
    (hp : valid t p = true) (h : preceding t it p = some y) :
    docLt y p = true ∧ valid t y = true := by
  simp only [preceding] at h
  split at h
  · cases h
  · split at h
    · rename_i sib hsib
      obtain ⟨r, j, rfl, rfl⟩ := prev_sibling_spec _ sib hsib
      split at h
      · rename_i st hs
        cases h
        constructor
        · have hd := docLt_sibling r j (lastLeafRel st) []
          simpa using hd
        · have hleaf := subtreeAt_lastLeafRel st
          simp only [valid]
          rw [subtreeAt_append, hs]
          exact hleaf
      · rename_i hnone
        exfalso
        have hvs : valid t (r ++ [j]) = true := valid_prev_sibling t r j hp
        rw [valid, hnone] at hvs
        cases hvs
    · rename_i hsib
      cases p with
      | nil => cases h
      | cons a p' =>
        simp only [parent_node, Option.some.injEq] at h
        subst h
        cases hlast : (a :: p').getLast? with
        | none => simp at hlast
        | some i =>
          have hsplit := List.dropLast_append_getLast? i (Option.mem_def.mpr hlast)
          constructor
          · have hd := docLt_append_cons (a :: p').dropLast i []
            rw [hsplit] at hd
            exact hd
          · rw [← hsplit] at hp
            exact valid_append_left t _ [i] hp

/-- Pointwise implication plus one strict witness in the list gives a strict
`countP` inequality. -/
theorem countP_lt_of_mem (p q : Pos → Bool)
    (himp : ∀ z, p z = true → q z = true) (a : Pos)
    (hqa : q a = true) (hpa : p a = false) :
    ∀ l : List Pos, a ∈ l → l.countP p < l.countP q := by
  intro l
  induction l with
  | nil => intro ha; cases ha
  | cons x l' ih =>
    intro ha
    rw [List.countP_cons, List.countP_cons]
    rcases List.mem_cons.1 ha with rfl | hx
    · rw [hpa, hqa]
      have hle : l'.countP p ≤ l'.countP q :=
        List.countP_mono_left fun z _ hz => himp z hz
      simp only [Bool.false_eq_true, if_false, if_true]
      omega
    · have hlt := ih hx
      have hxq : (if q x = true then 1 else 0) ≥ (if p x = true then 1 else 0) := by
        cases hp : p x with
        | false => simp
        | true => rw [himp x hp]
      omega

/-- Number of document nodes strictly after `p` in document order. -/
def followersCount (t : DomTree) (p : Pos) : Nat :=
  (positionsFrom t).countP fun q => docLt p q

/-- Number of document nodes strictly before `p` in document order. -/
def precedersCount (t : DomTree) (p : Pos) : Nat :=
  (positionsFrom t).countP fun q => docLt q p

/-- Loop variant of the `traverse` loop: one unit for the pending flag flip,
plus the number of document nodes still ahead in the walking direction. -/
def loopMeasure (t : DomTree) (dir : Direction) (p : Pos) (before : Bool) :
    Nat :=
  match dir with
  | .Next => followersCount t p + (if before then 1 else 0)
  | .Previous => precedersCount t p + (if before then 0 else 1)

theorem followersCount_lt (t : DomTree) (p y : Pos) (hy : valid t y = true)
    (hlt : docLt p y = true) : followersCount t y < followersCount t p := by
  have h := countP_lt_of_mem (fun q => docLt y q) (fun q => docLt p q)
    (fun z hz => docLt_trans p y z hlt hz) y hlt (docLt_irrefl y)
    (positionsFrom t) (mem_positionsFrom t y hy)
  simpa [followersCount] using h

theorem precedersCount_lt (t : DomTree) (p y : Pos) (hy : valid t y = true)
    (hlt : docLt y p = true) : precedersCount t y < precedersCount t p := by
  have h := countP_lt_of_mem (fun q => docLt q y) (fun q => docLt q p)
    (fun z hz => docLt_trans z y p hz hlt) y hlt (docLt_irrefl y)
    (positionsFrom t) (mem_positionsFrom t y hy)
  simpa [precedersCount] using h

/-- Every iteration of the `traverse` loop strictly decreases the measure,
so with fuel above the measure the model never runs out. -/
theorem traverseAux_ne_fuelOut (t : DomTree) (it : NodeIterator)
    (dir : Direction) :
    ∀ fuel node before, valid t node = true →
      loopMeasure t dir node before < fuel →
      traverseAux t it dir fuel node before ≠ .fuelOut := by
  intro fuel
  induction fuel with
  | zero => intro node before _ hm; exact absurd hm (Nat.not_lt_zero _)
  | succ m ih =>
    intro node before hv hm
    cases hstep : stepCandidate t it dir node before with
    | none => simp [traverseAux, hstep]
    | some nb =>
      obtain ⟨node', before'⟩ := nb
      simp only [traverseAux, hstep]
      cases hacc : accept_node t it node' with
      | error e => simp [hacc]
      | ok r =>
        simp only [hacc]
        by_cases hr : r = FILTER_ACCEPT
        · simp [hr]
        · rw [if_neg hr]
          have hkey : valid t node' = true ∧
              loopMeasure t dir node' before' < m := by
            cases dir with
            | Next =>
              cases before with
              | true =>
                simp only [stepCandidate] at hstep
                cases hstep
                refine ⟨hv, ?_⟩
                simp only [loopMeasure] at hm ⊢
                simp at hm ⊢
                omega
              | false =>
                have hfol : following t it node = some node' ∧
                    before' = false := by
                  simp only [stepCandidate, Option.map_eq_some'] at hstep
                  obtain ⟨a, ha, heq⟩ := hstep
                  rw [Prod.mk.injEq] at heq
                  obtain ⟨h1, h2⟩ := heq
                  subst h1
                  exact ⟨ha, h2.symm⟩
                obtain ⟨hfol', hb⟩ := hfol
                subst hb
                obtain ⟨hdlt, hv'⟩ := following_advances t it node node' hfol'
                refine ⟨hv', ?_⟩
                have hcnt := followersCount_lt t node node' hv' hdlt
                simp only [loopMeasure] at hm ⊢
                simp at hm ⊢
                omega
            | Previous =>
              cases before with
              | false =>
                simp only [stepCandidate] at hstep
                cases hstep
                refine ⟨hv, ?_⟩
                simp only [loopMeasure] at hm ⊢
                simp at hm ⊢
                omega
              | true =>
                have hpre : preceding t it node = some node' ∧
                    before' = true := by
                  simp only [stepCandidate, Option.map_eq_some'] at hstep
                  obtain ⟨a, ha, heq⟩ := hstep
                  rw [Prod.mk.injEq] at heq
                  obtain ⟨h1, h2⟩ := heq
                  subst h1
                  exact ⟨ha, h2.symm⟩
                obtain ⟨hpre', hb⟩ := hpre
                subst hb
                obtain ⟨hdlt, hv'⟩ := preceding_retreats t it node node' hv hpre'
                refine ⟨hv', ?_⟩
                have hcnt := precedersCount_lt t node node' hv' hdlt
                simp only [loopMeasure] at hm ⊢
                simp at hm ⊢
                omega
          exact ih node' before' hkey.1 hkey.2

/-- C10: Termination: on every finite document tree, every `next()` and
`previous()` call from a cursor whose reference node is a node of the
document finishes — with fuel beyond the node count the model never reports
fuel exhaustion, because each loop iteration either consumes the flag flip
or moves the candidate strictly forward (`following`) or strictly backward
(`preceding`) in document order. -/
theorem traverse_terminates (t : DomTree) (it : NodeIterator)
    (dir : Direction) (fuel : Nat)
    (hvalid : valid t it.reference_node = true)
    (hfuel : (positionsFrom t).length + 2 ≤ fuel) :
    traverse t it dir fuel ≠ .fuelOut := by
  apply traverseAux_ne_fuelOut t it dir fuel _ _ hvalid
  have h1 : followersCount t it.reference_node ≤ (positionsFrom t).length :=
    List.countP_le_length _
  have h2 : precedersCount t it.reference_node ≤ (positionsFrom t).length :=
    List.countP_le_length _
  cases dir <;> cases hb : it.pointer_before_reference_node <;>
    simp only [loopMeasure, if_true, if_false] <;> simp <;> omega

/-- Witness for C10: a concrete `next()` run does not exhaust its fuel. -/
theorem traverse_terminates_witness :
    traverse flatTree flatIt0 .Next 9 ≠ .fuelOut :=
  traverse_terminates flatTree flatIt0 .Next 9 (by decide)
    (by norm_num [flatTree, positionsFrom, positionsFrom.positionsChildren])

end NodeIteratorSpec
